import Mathlib

/-!
Verification of the markup-to-HTML transformer (`htmlify`) and the
deterministic identifier generator (`generate_id`) of the org-to-anki
converter, against its natural-language specification.

The program is embedded shallowly: strings are `List Char` internally with
`String` at the boundary, Python's `re.sub` passes for the three inline
markers are embedded as fuel-indexed structural scanners (the fuel is the
input length, which always suffices), and the per-line nested-list
restructuring is an explicit fold over the split lines carrying the list
level stack.
-/

/-- Boolean test that `t` is a leading segment of `l` (Python `startswith`). -/
def leadsB : List Char → List Char → Bool
| [], _ => true
| _ :: _, [] => false
| a :: t, b :: l => if a = b then leadsB t l else false

/-- Boolean test that `t` occurs contiguously somewhere inside `l`
(Python `t in l`). -/
def occursB : List Char → List Char → Bool
| t, [] => leadsB t []
| t, c :: rest => leadsB t (c :: rest) || occursB t rest

/-- Number of positions of `l` at which the pattern `p` starts. -/
def countP (p : List Char) : List Char → Nat
| [] => 0
| c :: rest => (if leadsB p (c :: rest) then 1 else 0) + countP p rest

/-- Python whitespace (`str.isspace`, also regex `\s` on `str`). -/
def pyIsSpace (c : Char) : Bool :=
  c = ' ' || c = '\t' || c = '\n' || c = '\x0b' || c = '\x0c' || c = '\r' ||
  c = '\x1c' || c = '\x1d' || c = '\x1e' || c = '\x1f' ||
  c = '\x85' || c = '\xa0' || c = ' ' ||
  (' ' ≤ c && c ≤ ' ') ||
  c = ' ' || c = ' ' || c = ' ' || c = ' ' || c = '　'

/-- `html.escape` on one character (`quote=True`): `&`, `<`, `>`, `"`, `'`. -/
def escChar (c : Char) : List Char :=
  if c = '&' then "&amp;".data
  else if c = '<' then "&lt;".data
  else if c = '>' then "&gt;".data
  else if c = '"' then "&quot;".data
  else if c = '\'' then "&#x27;".data
  else [c]

/-- `html.escape(text)`: character-wise escaping of the whole block. -/
def escapeL (l : List Char) : List Char := (l.map escChar).flatten

/-- Character inequality as a Boolean predicate (the `[^d]` of the regexes). -/
def neC (d x : Char) : Bool := if x = d then false else true

/-- Character equality as a Boolean predicate. -/
def eqC (d x : Char) : Bool := if x = d then true else false

/-- Fuel-indexed scanner for `re.sub(r"d([^d]+)d", opn ++ group 1 ++ cls, ·)`
where `d` is a one-character delimiter.  At each delimiter it takes the
maximal run of non-delimiter characters; a match needs a closing delimiter
right after the run (the regex cannot backtrack into a shorter run because
the run contains no delimiter).  Fuel `≥` input length always suffices. -/
def subPairF (d : Char) (opn cls : List Char) : Nat → List Char → List Char
| _, [] => []
| 0, l => l
| Nat.succ f, c :: rest =>
  if c = d then
    match rest.dropWhile (neC d) with
    | _ :: rest2 =>
      let g := rest.takeWhile (neC d)
      if g.isEmpty then c :: subPairF d opn cls f rest
      else opn ++ g ++ cls ++ subPairF d opn cls f rest2
    | [] => c :: rest
  else c :: subPairF d opn cls f rest

/-- One whole-block substitution pass with a one-character delimiter. -/
def subPair (d : Char) (opn cls : List Char) (l : List Char) : List Char :=
  subPairF d opn cls l.length l

/-- `re.sub(r"/([^/]+)/", r" <em>\1</em> ", text)`. -/
def subEm (l : List Char) : List Char := subPair '/' " <em>".data "</em> ".data l

/-- `re.sub(r"\*([^\*]+)\*", r" <strong>\1</strong> ", text)`. -/
def subStrong (l : List Char) : List Char :=
  subPair '*' " <strong>".data "</strong> ".data l

/-- Fuel-indexed scanner for `re.sub(r" =([^=]+)= ", r" <code>\1</code> ", ·)`:
the delimiters must be bounded by literal spaces on the outside, and the
trailing space is consumed by the match (the replacement re-emits both). -/
def subCodeF : Nat → List Char → List Char
| _, [] => []
| 0, l => l
| Nat.succ _, [c] => [c]
| Nat.succ f, c :: x :: rest2 =>
  if c = ' ' then
    if x = '=' then
      match rest2.dropWhile (neC '=') with
      | [] => ' ' :: subCodeF f (x :: rest2)
      | _ :: next =>
        match next with
        | [] => ' ' :: subCodeF f (x :: rest2)
        | y :: rest3 =>
          if y = ' ' then
            if (rest2.takeWhile (neC '=')).isEmpty then ' ' :: subCodeF f (x :: rest2)
            else " <code>".data ++ rest2.takeWhile (neC '=') ++
              "</code> ".data ++ subCodeF f rest3
          else ' ' :: subCodeF f (x :: rest2)
    else c :: subCodeF f (x :: rest2)
  else c :: subCodeF f (x :: rest2)

/-- The code-marker substitution pass. -/
def subCode (l : List Char) : List Char := subCodeF l.length l

/-- `text.split("\n")` with Python semantics: splitting the empty string
yields one empty piece, and `n` newlines yield `n + 1` pieces. -/
def splitNl : List Char → List (List Char)
| [] => [[]]
| c :: rest =>
  if c = '\n' then [] :: splitNl rest
  else
    match splitNl rest with
    | [] => [[c]]
    | p :: ps => (c :: p) :: ps

/-- `re.match(r"^(\s)*-", line)`: optional leading whitespace, then a hyphen. -/
def isListLine (l : List Char) : Bool :=
  match l.dropWhile pyIsSpace with
  | [] => false
  | c :: _ => if c = '-' then true else false

/-- `len(re.match(r"^\s*", line).group(0))`: the count of leading whitespace. -/
def lineLevel (l : List Char) : Nat := (l.takeWhile pyIsSpace).length

/-- Removal of the maximal all-whitespace suffix (right half of `str.strip`). -/
def rstrip : List Char → List Char
| [] => []
| c :: rest =>
  match rstrip rest with
  | [] => if pyIsSpace c then [] else [c]
  | r => c :: r

/-- Python `line.strip()`. -/
def pyStrip (l : List Char) : List Char := rstrip (l.dropWhile pyIsSpace)

/-- The final `while list_levels: out += "</ul>"; pop` drain. -/
def drain (stack : List Nat) : List Char :=
  match stack with
  | [] => []
  | _ :: rest => "</ul>".data ++ drain rest

/-- One iteration of the line loop of `htmlify`: takes the list level stack
and the line, returns the new stack and the text emitted for this line
(including the trailing newline). -/
def processLine (stack : List Nat) (line : List Char) : List Nat × List Char :=
  if isListLine line then
    let level := lineLevel line
    match stack with
    | [] =>
      (level :: stack,
        "<ul>".data ++ "<li>".data ++ (pyStrip line).drop 1 ++ "</li>".data ++ ['\n'])
    | top :: rest =>
      if top < level then
        (level :: stack,
          "<ul>".data ++ "<li>".data ++ (pyStrip line).drop 1 ++ "</li>".data ++ ['\n'])
      else if top > level then
        (rest,
          "</ul>".data ++ "<li>".data ++ (pyStrip line).drop 1 ++ "</li>".data ++ ['\n'])
      else
        (stack, "<li>".data ++ (pyStrip line).drop 1 ++ "</li>".data ++ ['\n'])
  else ([], drain stack ++ pyStrip line ++ "<br>".data ++ ['\n'])

/-- The line loop of `htmlify` followed by the final drain. -/
def runLines : List Nat → List (List Char) → List Char
| stack, [] => drain stack
| stack, line :: ls =>
  (processLine stack line).2 ++ runLines (processLine stack line).1 ls

/-- `htmlify` on character lists: strip leading stars, HTML-escape, the three
marker passes in order, then the per-line list restructuring. -/
def htmlifyL (l : List Char) : List Char :=
  runLines []
    (splitNl (subCode (subStrong (subEm (escapeL (l.dropWhile (eqC '*')))))))

/-- `htmlify(text)` from `src/main.py`. -/
def htmlify (s : String) : String := ⟨htmlifyL s.data⟩

/-! ### The identifier generator

`generate_id(namespace, node)` is `str(uuid.uuid5(namespace, node.heading))`:
a name-based UUID, i.e. the SHA-1 digest of the namespace bytes followed by
the UTF-8 encoding of the name, truncated to 16 bytes with the version and
variant nibbles forced, rendered as lowercase hex with dashes. -/

/-- Truncation to a 32-bit machine word. -/
def w32 (n : Nat) : Nat := n % 4294967296

/-- 32-bit rotate left by `b`. -/
def rotl (b n : Nat) : Nat := w32 (w32 (n * 2 ^ b) + n % 4294967296 / 2 ^ (32 - b))

/-- `k` bytes of `n`, big-endian. -/
def beBytes : Nat → Nat → List Nat
| 0, _ => []
| Nat.succ k, n => n / 2 ^ (8 * k) % 256 :: beBytes k n

/-- Groups of four bytes into big-endian 32-bit words. -/
def bytesToWords : List Nat → List Nat
| a :: b :: c :: d :: rest => (((a * 256 + b) * 256 + c) * 256 + d) :: bytesToWords rest
| _ => []

/-- SHA-1 padding: `0x80`, zeros to 56 mod 64, then the 8-byte bit length. -/
def sha1pad (msg : List Nat) : List Nat :=
  msg ++ 128 :: List.replicate ((55 + 64 - msg.length % 64) % 64) 0 ++
    beBytes 8 (msg.length * 8)

/-- Split a word list into 16-word blocks (fuel-indexed, fuel `≥` length). -/
def chunk16F : Nat → List Nat → List (List Nat)
| _, [] => []
| 0, _ => []
| Nat.succ f, ws => ws.take 16 :: chunk16F f (ws.drop 16)

/-- Split a word list into 16-word blocks. -/
def chunk16 (ws : List Nat) : List (List Nat) := chunk16F ws.length ws

/-- Message-schedule expansion; the accumulator is kept newest-first. -/
def expandW : Nat → List Nat → List Nat
| 0, acc => acc.reverse
| Nat.succ k, acc =>
  expandW k (rotl 1 (acc.getD 2 0 ^^^ acc.getD 7 0 ^^^ acc.getD 13 0 ^^^ acc.getD 15 0) :: acc)

/-- The 80-word message schedule of one block. -/
def sched (ws : List Nat) : List Nat := expandW 64 ws.reverse

/-- Round function and constant of SHA-1 round `t`. -/
def fK (t b c d : Nat) : Nat × Nat :=
  if t < 20 then ((b &&& c) ||| ((4294967295 ^^^ b) &&& d), 1518500249)
  else if t < 40 then (b ^^^ c ^^^ d, 1859775393)
  else if t < 60 then ((b &&& c) ||| (b &&& d) ||| (c &&& d), 2400959708)
  else (b ^^^ c ^^^ d, 3395469782)

/-- The 80 compression rounds over one block's schedule. -/
def sha1Rounds : Nat → List Nat → Nat × Nat × Nat × Nat × Nat → Nat × Nat × Nat × Nat × Nat
| _, [], st => st
| t, w :: ws, (a, b, c, d, e) =>
  sha1Rounds (t + 1) ws
    (w32 (rotl 5 a + (fK t b c d).1 + e + (fK t b c d).2 + w), a, rotl 30 b, c, d)

/-- SHA-1 initial chaining value. -/
def sha1H0 : Nat × Nat × Nat × Nat × Nat :=
  (1732584193, 4023233417, 2562383102, 271733878, 3285377520)

/-- One SHA-1 block step. -/
def sha1Block (st : Nat × Nat × Nat × Nat × Nat) (blk : List Nat) :
    Nat × Nat × Nat × Nat × Nat :=
  match sha1Rounds 0 (sched blk) st with
  | (a, b, c, d, e) =>
    (w32 (st.1 + a), w32 (st.2.1 + b), w32 (st.2.2.1 + c),
     w32 (st.2.2.2.1 + d), w32 (st.2.2.2.2 + e))

/-- SHA-1 of a byte list, as a 20-byte list. -/
def sha1 (msg : List Nat) : List Nat :=
  match (chunk16 (bytesToWords (sha1pad msg))).foldl sha1Block sha1H0 with
  | (a, b, c, d, e) =>
    beBytes 4 a ++ beBytes 4 b ++ beBytes 4 c ++ beBytes 4 d ++ beBytes 4 e

/-- UTF-8 encoding of one character, as bytes. -/
def utf8Char (c : Char) : List Nat :=
  let n := c.toNat
  if n < 128 then [n]
  else if n < 2048 then [192 + n / 64, 128 + n % 64]
  else if n < 65536 then [224 + n / 4096, 128 + n / 64 % 64, 128 + n % 64]
  else [240 + n / 262144, 128 + n / 4096 % 64, 128 + n / 64 % 64, 128 + n % 64]

/-- UTF-8 encoding of a string, as bytes. -/
def utf8Str (s : String) : List Nat := (s.data.map utf8Char).flatten

/-- Lowercase hex digit. -/
def hexDigit (n : Nat) : Char := Char.ofNat (if n < 10 then 48 + n else 87 + n)

/-- Two lowercase hex digits of a byte. -/
def byteHex (b : Nat) : List Char := [hexDigit (b / 16 % 16), hexDigit (b % 16)]

/-- Lowercase hex of a byte list. -/
def bytesHex (bs : List Nat) : List Char := (bs.map byteHex).flatten

/-- Force the version nibble (5) of byte 6 and the variant bits of byte 8. -/
def setNibbles (bs : List Nat) : List Nat :=
  bs.enum.map (fun p =>
    if p.1 = 6 then p.2 % 16 + 80 else if p.1 = 8 then p.2 % 64 + 128 else p.2)

/-- `str(uuid.uuid5(ns, name))`: the name-based UUID as its canonical
lowercase hex string. -/
def uuid5 (ns : List Nat) (name : String) : String :=
  match setNibbles ((sha1 (ns ++ utf8Str name)).take 16) with
  | d =>
    ⟨bytesHex (d.take 4) ++ ['-'] ++ bytesHex ((d.drop 4).take 2) ++ ['-'] ++
      bytesHex ((d.drop 6).take 2) ++ ['-'] ++ bytesHex ((d.drop 8).take 2) ++ ['-'] ++
      bytesHex (d.drop 10)⟩

/-- An outline node as the identifier generator sees it: the heading is the
hash key; the body and the tree position are carried but unused. -/
structure OrgNode where
  heading : String
  body : String
  level : Nat

/-- `uuid.NAMESPACE_DNS`, as its 16 bytes. -/
def NAMESPACE_DNS : List Nat :=
  [107, 167, 184, 16, 157, 173, 17, 209, 128, 180, 0, 192, 79, 212, 48, 200]

/-- `generate_id(namespace, node)` from `src/main.py`. -/
def generate_id (ns : List Nat) (node : OrgNode) : String := uuid5 ns node.heading

/-! ### The transformer with Python's partial operations made explicit

`htmlifyChecked` is the same line loop, but every operation of the source
that can raise in Python — `list_levels[-1]` on an empty list and
`list_levels.pop()` on an empty list — is modelled as an `Option`, `none`
standing for an `IndexError`.  The totality claim is that it never returns
`none`.  (`line.strip()[1:]` is total in Python: slicing never raises.) -/

/-- `list_levels[-1]`: raises on an empty list. -/
def pyLast (s : List Nat) : Option Nat :=
  match s with
  | [] => none
  | top :: _ => some top

/-- `list_levels.pop()`: raises on an empty list; returns the rest. -/
def pyPop (s : List Nat) : Option (List Nat) :=
  match s with
  | [] => none
  | _ :: rest => some rest

/-- One iteration of the line loop with the fallible accesses explicit;
mirrors the source's short-circuit `len(list_levels) == 0 or ...`. -/
def processLineChecked (stack : List Nat) (line : List Char) :
    Option (List Nat × List Char) :=
  if isListLine line then
    let level := lineLevel line
    if stack.length = 0 then
      some (level :: stack,
        "<ul>".data ++ "<li>".data ++ (pyStrip line).drop 1 ++ "</li>".data ++ ['\n'])
    else
      match pyLast stack with
      | none => none
      | some top =>
        if top < level then
          some (level :: stack,
            "<ul>".data ++ "<li>".data ++ (pyStrip line).drop 1 ++ "</li>".data ++ ['\n'])
        else if top > level then
          match pyPop stack with
          | none => none
          | some rest =>
            some (rest,
              "</ul>".data ++ "<li>".data ++ (pyStrip line).drop 1 ++ "</li>".data ++ ['\n'])
        else
          some (stack, "<li>".data ++ (pyStrip line).drop 1 ++ "</li>".data ++ ['\n'])
  else some ([], drain stack ++ pyStrip line ++ "<br>".data ++ ['\n'])

/-- The line loop with fallible accesses explicit. -/
def runLinesChecked : List Nat → List (List Char) → Option (List Char)
| stack, [] => some (drain stack)
| stack, line :: ls =>
  match processLineChecked stack line with
  | none => none
  | some (s2, out) =>
    match runLinesChecked s2 ls with
    | none => none
    | some r => some (out ++ r)

/-- `htmlify` with every fallible operation modelled in `Option`. -/
def htmlifyChecked (s : String) : Option String :=
  match runLinesChecked []
    (splitNl (subCode (subStrong (subEm (escapeL (s.data.dropWhile (eqC '*'))))))) with
  | none => none
  | some l => some ⟨l⟩

/-! ### Tag structure of intermediate texts

After HTML escaping, every `<` of the block belongs to a tag injected by one
of the three substitution passes; after list restructuring, also to one of
the list tags.  `taggedBy bs l` says every `<` of `l` is immediately
followed by one of the continuations in `bs`; this is the invariant from
which the list-balance property is proved. -/

/-- The continuations (after `<`) of the tags injected by the marker passes. -/
def tagBodies6 : List (List Char) :=
  ["em>".data, "/em>".data, "strong>".data, "/strong>".data, "code>".data, "/code>".data]

/-- The continuations of all tags the transformer can emit. -/
def tagBodiesOut : List (List Char) :=
  tagBodies6 ++ ["ul>".data, "/ul>".data, "li>".data, "/li>".data, "br>".data]

/-- Every `<` in `l` is immediately followed by one of the continuations
in `bs` (entirely inside `l`). -/
def taggedBy (bs : List (List Char)) : List Char → Bool
| [] => true
| c :: rest =>
  (if c = '<' then bs.any (fun b => leadsB b rest) else true) && taggedBy bs rest

/-! ## Basic properties of the list-string utilities -/

theorem leadsB_nil_left (l : List Char) : leadsB [] l = true := by
  cases l <;> rfl

theorem leadsB_nil_iff (t : List Char) : leadsB t [] = true ↔ t = [] := by
  cases t <;> simp [leadsB]

theorem leadsB_ex (t : List Char) : ∀ l, leadsB t l = true ↔ ∃ r, t ++ r = l := by
  induction t with
  | nil => intro l; simp [leadsB_nil_left]
  | cons a t ih =>
    intro l
    cases l with
    | nil => simp [leadsB]
    | cons b l' =>
      by_cases hab : a = b
      · subst hab
        simp [leadsB, ih, List.cons_append, List.cons.injEq]
      · simp only [leadsB, if_neg hab, List.cons_append, List.cons.injEq]
        constructor
        · intro h; exact absurd h (by simp)
        · rintro ⟨r, hr1, hr2⟩; exact absurd hr1 hab

theorem occursB_nil (l : List Char) : occursB [] l = true := by
  cases l <;> simp [occursB, leadsB_nil_left]

theorem occursB_of_leadsB {t l : List Char} (h : leadsB t l = true) :
    occursB t l = true := by
  cases l with
  | nil => exact h
  | cons c l' => simp [occursB, h]

theorem occursB_cons {t l : List Char} (c : Char) (h : occursB t l = true) :
    occursB t (c :: l) = true := by
  simp [occursB, h]

theorem occursB_cons_elim {t l : List Char} {c : Char}
    (h : occursB t (c :: l) = true) :
    leadsB t (c :: l) = true ∨ occursB t l = true := by
  simpa [occursB, Bool.or_eq_true] using h

theorem occursB_append_right {t w : List Char} (v : List Char)
    (h : occursB t w = true) : occursB t (v ++ w) = true := by
  induction v with
  | nil => exact h
  | cons c v ih => exact occursB_cons c ih

theorem leadsB_append_ext {t v : List Char} (w : List Char)
    (h : leadsB t v = true) : leadsB t (v ++ w) = true := by
  obtain ⟨r, rfl⟩ := (leadsB_ex t v).mp h
  exact (leadsB_ex t _).mpr ⟨r ++ w, by simp⟩

theorem occursB_append_left {t v : List Char} (w : List Char)
    (h : occursB t v = true) : occursB t (v ++ w) = true := by
  induction v with
  | nil =>
    have : t = [] := (leadsB_nil_iff t).mp h
    subst this; exact occursB_nil w
  | cons c v ih =>
    rcases occursB_cons_elim h with h' | h'
    · exact occursB_of_leadsB (leadsB_append_ext w h')
    · exact occursB_cons c (ih h')

theorem leadsB_cons_shape {t l : List Char} {c : Char}
    (h : leadsB t (c :: l) = true) :
    t = [] ∨ ∃ t', t = c :: t' ∧ leadsB t' l = true := by
  cases t with
  | nil => exact Or.inl rfl
  | cons a t' =>
    right
    by_cases hac : a = c
    · subst hac
      refine ⟨t', rfl, ?_⟩
      simpa [leadsB] using h
    · simp [leadsB, if_neg hac] at h

theorem occursB_drop_head {t l : List Char} {c : Char} (hc : c ∉ t)
    (h : occursB t (c :: l) = true) : occursB t l = true := by
  rcases occursB_cons_elim h with h' | h'
  · rcases leadsB_cons_shape h' with rfl | ⟨t', rfl, _⟩
    · exact occursB_nil l
    · exact absurd (List.mem_cons_self c t') hc
  · exact h'

theorem leadsB_no_cross {c : Char} (z : List Char) :
    ∀ t y : List Char, c ∉ t → leadsB t (y ++ c :: z) = true → leadsB t y = true := by
  intro t
  induction t with
  | nil => intro y _ _; exact leadsB_nil_left y
  | cons a t' ih =>
    intro y hc h
    cases y with
    | nil =>
      simp only [List.nil_append] at h
      rcases leadsB_cons_shape h with h' | ⟨t'', ht'', _⟩
      · exact absurd h' (by simp)
      · have : a = c := by injection ht''
        exact absurd (this ▸ List.mem_cons_self a t') hc
    | cons b y' =>
      simp only [List.cons_append] at h
      rcases leadsB_cons_shape h with h' | ⟨t'', ht'', hl⟩
      · exact absurd h' (by simp)
      · have ha : a = b := by injection ht''
        have ht : t' = t'' := by injection ht''
        subst ha; subst ht
        have : leadsB t' y' = true :=
          ih y' (fun hm => hc (List.mem_cons_of_mem a hm)) hl
      
        simpa [leadsB] using this

theorem occursB_split {t : List Char} {c : Char} (b : List Char) (hc : c ∉ t) :
    ∀ a, occursB t (a ++ c :: b) = true →
      occursB t a = true ∨ occursB t b = true := by
  intro a
  induction a with
  | nil =>
    intro h
    exact Or.inr (occursB_drop_head hc h)
  | cons x a' ih =>
    intro h
    rcases occursB_cons_elim h with h' | h'
    · exact Or.inl (occursB_of_leadsB (leadsB_no_cross (c := c) b t (x :: a') hc h'))
    · rcases ih h' with h'' | h''
      · exact Or.inl (occursB_cons x h'')
      · exact Or.inr h''

theorem takeWhile_append_all {p : Char → Bool} :
    ∀ {t : List Char}, (∀ x ∈ t, p x = true) → ∀ r,
      (t ++ r).takeWhile p = t ++ r.takeWhile p := by
  intro t
  induction t with
  | nil => intro _ r; simp
  | cons a t ih =>
    intro h r
    have ha : p a = true := h a (List.mem_cons_self a t)
    simp only [List.cons_append, List.takeWhile_cons, ha, if_pos]
    rw [ih (fun x hx => h x (List.mem_cons_of_mem a hx)) r]

theorem leadsB_takeWhile {p : Char → Bool} {t l : List Char}
    (ht : ∀ x ∈ t, p x = true) (h : leadsB t l = true) :
    leadsB t (l.takeWhile p) = true := by
  obtain ⟨r, rfl⟩ := (leadsB_ex t l).mp h
  rw [takeWhile_append_all ht r]
  exact (leadsB_ex t _).mpr ⟨r.takeWhile p, rfl⟩

theorem occursB_dropWhile {p : Char → Bool} {t : List Char}
    (hp : ∀ x, p x = true → x ∉ t) :
    ∀ l, occursB t l = true → occursB t (l.dropWhile p) = true := by
  intro l
  induction l with
  | nil => intro h; exact h
  | cons c rest ih =>
    intro h
    by_cases hc : p c = true
    · rw [List.dropWhile_cons, if_pos hc]
      exact ih (occursB_drop_head (hp c hc) h)
    · rw [List.dropWhile_cons, if_neg hc]
      exact h

/-! ## The checked transformer agrees with the plain one -/

theorem processLineChecked_eq (stack : List Nat) (line : List Char) :
    processLineChecked stack line = some (processLine stack line) := by
  by_cases h : isListLine line = true
  · cases stack with
    | nil => simp [processLineChecked, processLine, h, pyLast, pyPop]
    | cons top rest =>
      simp only [processLineChecked, processLine, h, if_pos, pyLast, pyPop,
        List.length_cons, Nat.succ_ne_zero, if_false, reduceCtorEq]
      split_ifs <;> rfl
  · simp [processLineChecked, processLine, h]

theorem runLinesChecked_eq : ∀ (lines : List (List Char)) (stack : List Nat),
    runLinesChecked stack lines = some (runLines stack lines) := by
  intro lines
  induction lines with
  | nil => intro stack; rfl
  | cons line ls ih =>
    intro stack
    rcases hp : processLine stack line with ⟨s2, out⟩
    simp [runLinesChecked, runLines, processLineChecked_eq, hp, ih]

/-! ## The claims -/

/-- C1 (counterexample): contrary to the claim, `transform("")` is not the
empty string: Python's `"".split("\n")` is `[""]`, so the line loop runs
once, on a single empty line. -/
theorem htmlify_empty_cex : (htmlify "" == "") = false := by decide

/-- C1 (amended): `transform("")` runs the line loop exactly once, on the
single empty line, and returns `"<br>\n"`. -/
theorem htmlify_empty_amended : htmlify "" = "<br>\n" := by decide

/-- C3: the identifier generator is deterministic and depends only on the
namespace and the node's heading text: nodes with equal headings but
different bodies or positions receive the same identifier. -/
theorem generate_id_heading_only (ns : List Nat) (n1 n2 : OrgNode)
    (h : n1.heading = n2.heading) : generate_id ns n1 = generate_id ns n2 := by
  unfold generate_id
  rw [h]

/-- Witness for C3 at two concrete nodes sharing a heading. -/
theorem generate_id_heading_only_wit :
    (OrgNode.mk "Photosynthesis" "light reactions" 1).heading =
      (OrgNode.mk "Photosynthesis" "dark reactions" 4).heading ∧
    generate_id NAMESPACE_DNS (OrgNode.mk "Photosynthesis" "light reactions" 1) =
      generate_id NAMESPACE_DNS (OrgNode.mk "Photosynthesis" "dark reactions" 4) :=
  ⟨rfl, generate_id_heading_only NAMESPACE_DNS
    (OrgNode.mk "Photosynthesis" "light reactions" 1)
    (OrgNode.mk "Photosynthesis" "dark reactions" 4) rfl⟩

/-- C4: on a list line whose depth is strictly below the top of the stack,
the transformer emits exactly one closing list-container tag and pops
exactly one level before emitting the line's list item, regardless of how
many levels the line dedents past. -/
theorem runLines_single_pop (d : Nat) (rest : List Nat) (line : List Char)
    (ls : List (List Char)) (h1 : isListLine line = true)
    (h2 : lineLevel line < d) :
    runLines (d :: rest) (line :: ls) =
      "</ul>".data ++ "<li>".data ++ (pyStrip line).drop 1 ++ "</li>".data ++
        ['\n'] ++ runLines rest ls := by
  have h3 : ¬ (d < lineLevel line) := by omega
  simp [runLines, processLine, h1, h2, h3, List.append_assoc]

/-- Witness for C4: a line that dedents two levels at once still closes and
pops only one level. -/
theorem runLines_single_pop_wit :
    isListLine "- x".data = true ∧ lineLevel "- x".data < 4 ∧
    runLines [4, 2, 0] ["- x".data] =
      "</ul>".data ++ "<li>".data ++ (pyStrip "- x".data).drop 1 ++
        "</li>".data ++ ['\n'] ++ runLines [2, 0] [] :=
  ⟨by decide, by decide,
    runLines_single_pop 4 [2, 0] "- x".data [] (by decide) (by decide)⟩

/-- C6 (counterexample): in `transform(" /a/ *b* =c= ")` the emphasis span
is not padded by the injected space on its left side — the per-line strip
removes the block-edge padding — so the claim's fully padded emphasis
span does not occur in the output. -/
theorem htmlify_markers_cex :
    occursB " <em>a</em> ".data (htmlify " /a/ *b* =c= ").data = false := by decide

/-- C6 (amended): `transform(" /a/ *b* =c= ")` contains the emphasis-wrapped
`a`, the strong-wrapped `b` and the code-wrapped `c` in that left-to-right
order, separated by the injected spaces, but the block-edge injected
padding (before the emphasis span and after the code span) is removed by
the per-line strip. -/
theorem htmlify_markers_amended :
    htmlify " /a/ *b* =c= " =
      "<em>a</em>   <strong>b</strong>  <code>c</code><br>\n" := by decide

/-- C7: a list line followed by a plain text line drains the open list
container eagerly, before the text and its line-break tag are emitted. -/
theorem htmlify_mixed_list_text :
    htmlify "- a\ntext" = "<ul><li> a</li>\n</ul>text<br>\n" := by decide

/-- C8: the code-span substitution fires only when both `=` delimiters are
bounded by a literal space on the outside: it fires between spaces, and is
left unreplaced at block start, at block end, right after a newline, and
adjacent to punctuation. -/
theorem htmlify_code_needs_spaces :
    htmlify "a =c= b" = "a <code>c</code> b<br>\n" ∧
    occursB "<code>".data (htmlify "=c= x").data = false ∧
    occursB "<code>".data (htmlify "x =c=").data = false ∧
    occursB "<code>".data (htmlify "x\n=c= y").data = false ∧
    occursB "<code>".data (htmlify "a (=c=) b").data = false :=
  ⟨by decide, by decide, by decide, by decide, by decide⟩

/-- C9: the transformer is total: with every fallible operation of the
source modelled in `Option`, it returns `some` of the plain result on
every input — no input reaches a failure branch. -/
theorem htmlify_total (s : String) : htmlifyChecked s = some (htmlify s) := by
  unfold htmlifyChecked htmlify htmlifyL
  rw [runLinesChecked_eq]

/-- C10: all leading stars are stripped before escaping and substitution,
so a strong span whose opening delimiter is the first character of the
block loses that delimiter and is never rendered as a strong-tagged span. -/
theorem htmlify_leading_star :
    (∀ s : String, htmlify ⟨'*' :: s.data⟩ = htmlify s) ∧
    occursB "<strong>".data (htmlify "*bold* rest").data = false := by
  constructor
  · intro s
    have hdw : List.dropWhile (eqC '*') ('*' :: s.data) =
        List.dropWhile (eqC '*') s.data := by
      rw [List.dropWhile_cons]
      simp [eqC]
    simp [htmlify, htmlifyL, hdw]
  · decide

/-! ## The tag-structure invariant -/

theorem taggedBy_nil (bs : List (List Char)) : taggedBy bs [] = true := rfl

theorem taggedBy_tail {bs : List (List Char)} {c : Char} {l : List Char}
    (h : taggedBy bs (c :: l) = true) : taggedBy bs l = true := by
  simp only [taggedBy, Bool.and_eq_true] at h
  exact h.2

theorem taggedBy_head {bs : List (List Char)} {c : Char} {l : List Char}
    (h : taggedBy bs (c :: l) = true) (hc : c = '<') :
    ∃ b ∈ bs, leadsB b l = true := by
  simp only [taggedBy, Bool.and_eq_true] at h
  have h1 := h.1
  rw [if_pos hc] at h1
  simpa [List.any_eq_true] using h1

theorem taggedBy_cons_of {bs : List (List Char)} {c : Char} {l : List Char}
    (hc : c = '<' → ∃ b ∈ bs, leadsB b l = true)
    (ht : taggedBy bs l = true) : taggedBy bs (c :: l) = true := by
  simp only [taggedBy, Bool.and_eq_true]
  refine ⟨?_, ht⟩
  by_cases h : c = '<'
  · rw [if_pos h]
    rcases hc h with ⟨b, hb, hl⟩
    simp only [List.any_eq_true]
    exact ⟨b, hb, hl⟩
  · rw [if_neg h]

theorem taggedBy_append {bs : List (List Char)} :
    ∀ {a b : List Char}, taggedBy bs a = true → taggedBy bs b = true →
      taggedBy bs (a ++ b) = true := by
  intro a
  induction a with
  | nil => intro b _ hb; exact hb
  | cons c a' ih =>
    intro b ha hb
    refine taggedBy_cons_of ?_ (ih (taggedBy_tail ha) hb)
    intro hc
    rcases taggedBy_head ha hc with ⟨t, ht, hl⟩
    exact ⟨t, ht, leadsB_append_ext b hl⟩

theorem taggedBy_mono {bs1 bs2 : List (List Char)} (hsub : ∀ b ∈ bs1, b ∈ bs2) :
    ∀ {l : List Char}, taggedBy bs1 l = true → taggedBy bs2 l = true := by
  intro l
  induction l with
  | nil => intro _; rfl
  | cons c l ih =>
    intro h
    refine taggedBy_cons_of ?_ (ih (taggedBy_tail h))
    intro hc
    rcases taggedBy_head h hc with ⟨t, ht, hl⟩
    exact ⟨t, hsub t ht, hl⟩

theorem taggedBy_of_no_lt {bs : List (List Char)} :
    ∀ {l : List Char}, (∀ x ∈ l, ¬ x = '<') → taggedBy bs l = true := by
  intro l
  induction l with
  | nil => intro _; rfl
  | cons c l ih =>
    intro h
    refine taggedBy_cons_of ?_ (ih fun x hx => h x (List.mem_cons_of_mem c hx))
    intro hc
    exact absurd hc (h c (List.mem_cons_self c l))

theorem taggedBy_takeWhile {bs : List (List Char)} {p : Char → Bool}
    (hp : ∀ b ∈ bs, ∀ x ∈ b, p x = true) :
    ∀ {l : List Char}, taggedBy bs l = true →
      taggedBy bs (l.takeWhile p) = true := by
  intro l
  induction l with
  | nil => intro _; rfl
  | cons c l ih =>
    intro h
    rw [List.takeWhile_cons]
    by_cases hpc : p c = true
    · rw [if_pos hpc]
      refine taggedBy_cons_of ?_ (ih (taggedBy_tail h))
      intro hc
      rcases taggedBy_head h hc with ⟨t, ht, hl⟩
      exact ⟨t, ht, leadsB_takeWhile (hp t ht) hl⟩
    · rw [if_neg hpc]; rfl

theorem taggedBy_dropWhile {bs : List (List Char)} {p : Char → Bool} :
    ∀ {l : List Char}, taggedBy bs l = true →
      taggedBy bs (l.dropWhile p) = true := by
  intro l
  induction l with
  | nil => intro _; rfl
  | cons c l ih =>
    intro h
    rw [List.dropWhile_cons]
    by_cases hpc : p c = true
    · rw [if_pos hpc]; exact ih (taggedBy_tail h)
    · rw [if_neg hpc]; exact h

theorem taggedBy_drop_one {bs : List (List Char)} {l : List Char}
    (h : taggedBy bs l = true) : taggedBy bs (l.drop 1) = true := by
  cases l with
  | nil => exact h
  | cons c l => exact taggedBy_tail h

/-! ### Stripping preserves the tag structure -/

theorem rstrip_eq_nil : ∀ {l : List Char}, rstrip l = [] →
    ∀ x ∈ l, pyIsSpace x = true := by
  intro l
  induction l with
  | nil => intro _ x hx; cases hx
  | cons c rest ih =>
    intro h x hx
    rcases hr : rstrip rest with _ | ⟨y, r⟩
    · simp only [rstrip, hr] at h
      by_cases hc : pyIsSpace c = true
      · rcases List.mem_cons.mp hx with rfl | hx'
        · exact hc
        · exact ih hr x hx'
      · rw [if_neg hc] at h
        cases h
    · simp only [rstrip, hr] at h
      cases h

theorem leadsB_rstrip : ∀ (l t : List Char),
    (∀ x ∈ t, pyIsSpace x = false) → t ≠ [] →
    leadsB t l = true → leadsB t (rstrip l) = true := by
  intro l
  induction l with
  | nil => intro t hns hne h; exact absurd ((leadsB_nil_iff t).mp h) hne
  | cons c rest ih =>
    intro t hns hne h
    rcases leadsB_cons_shape h with rfl | ⟨t', rfl, hl⟩
    · exact absurd rfl hne
    · rcases hr : rstrip rest with _ | ⟨y, r⟩
      · rcases t' with _ | ⟨a, t''⟩
        · have hc := hns c (List.mem_cons_self c [])
          simp only [rstrip, hr, hc]
          simp [leadsB]
        · obtain ⟨rr, hrr⟩ := (leadsB_ex (a :: t'') rest).mp hl
          have ha : a ∈ rest := by rw [← hrr]; simp
          have h1 := rstrip_eq_nil hr a ha
          have h2 := hns a (by simp)
          rw [h1] at h2
          cases h2
      · simp only [rstrip, hr]
        rcases t' with _ | ⟨a, t''⟩
        · simp [leadsB]
        · have h3 : leadsB (a :: t'') (rstrip rest) = true :=
            ih (a :: t'') (fun x hx => hns x (List.mem_cons_of_mem c hx))
              (by simp) hl
          rw [hr] at h3
          simpa [leadsB] using h3

theorem taggedBy_rstrip {bs : List (List Char)}
    (hb : ∀ b ∈ bs, b ≠ [] ∧ ∀ x ∈ b, pyIsSpace x = false) :
    ∀ {l : List Char}, taggedBy bs l = true →
      taggedBy bs (rstrip l) = true := by
  intro l
  induction l with
  | nil => intro _; rfl
  | cons c rest ih =>
    intro h
    rcases hr : rstrip rest with _ | ⟨y, r⟩
    · by_cases hc : pyIsSpace c = true
      · simp only [rstrip, hr, hc, if_true]
        rfl
      · simp only [rstrip, hr, hc, if_false]
        refine taggedBy_cons_of ?_ rfl
        intro hlt
        rcases taggedBy_head h hlt with ⟨b, hbs, hlead⟩
        have hb' := hb b hbs
        have h2 := leadsB_rstrip rest b hb'.2 hb'.1 hlead
        rw [hr] at h2
        exact absurd ((leadsB_nil_iff b).mp h2) hb'.1
    · simp only [rstrip, hr]
      refine taggedBy_cons_of ?_ ?_
      · intro hlt
        rcases taggedBy_head h hlt with ⟨b, hbs, hlead⟩
        have hb' := hb b hbs
        have h2 := leadsB_rstrip rest b hb'.2 hb'.1 hlead
        rw [hr] at h2
        exact ⟨b, hbs, h2⟩
      · have h2 := ih (taggedBy_tail h)
        rw [hr] at h2
        exact h2

theorem taggedBy_pyStrip {bs : List (List Char)}
    (hb : ∀ b ∈ bs, b ≠ [] ∧ ∀ x ∈ b, pyIsSpace x = false)
    {l : List Char} (h : taggedBy bs l = true) :
    taggedBy bs (pyStrip l) = true :=
  taggedBy_rstrip hb (taggedBy_dropWhile h)

/-! ### Line splitting preserves the tag structure -/

theorem splitNl_ne_nil : ∀ l : List Char, splitNl l ≠ [] := by
  intro l
  cases l with
  | nil => simp [splitNl]
  | cons c rest =>
    by_cases hc : c = '\n'
    · simp [splitNl, hc]
    · simp only [splitNl, if_neg hc]
      rcases hs : splitNl rest with _ | ⟨p, ps⟩ <;> simp

theorem leadsB_splitNl_head :
    ∀ (l t p : List Char) (ps : List (List Char)),
      splitNl l = p :: ps → leadsB t l = true → (∀ x ∈ t, ¬ x = '\n') →
      leadsB t p = true := by
  intro l
  induction l with
  | nil =>
    intro t p ps hs h _
    simp only [splitNl] at hs
    injection hs with h1 h2
    subst h1
    have : t = [] := (leadsB_nil_iff t).mp h
    subst this
    rfl
  | cons c rest ih =>
    intro t p ps hs h hn
    by_cases hc : c = '\n'
    · subst hc
      simp only [splitNl, if_pos] at hs
      injection hs with h1 h2
      subst h1
      rcases leadsB_cons_shape h with rfl | ⟨t', rfl, _⟩
      · rfl
      · exact absurd rfl (hn '\n' (by simp))
    · rcases hsr : splitNl rest with _ | ⟨p', ps'⟩
      · exact absurd hsr (splitNl_ne_nil rest)
      · simp only [splitNl, if_neg hc, hsr] at hs
        injection hs with h1 h2
        subst h1
        rcases leadsB_cons_shape h with rfl | ⟨t', rfl, hl⟩
        · exact leadsB_nil_left _
        · have h3 := ih t' p' ps' hsr hl
            (fun x hx => hn x (List.mem_cons_of_mem c hx))
          simp [leadsB, h3]

theorem taggedBy_splitNl {bs : List (List Char)}
    (hnl : ∀ b ∈ bs, ∀ x ∈ b, ¬ x = '\n') :
    ∀ l : List Char, taggedBy bs l = true →
      ∀ q ∈ splitNl l, taggedBy bs q = true := by
  intro l
  induction l with
  | nil =>
    intro _ q hq
    simp only [splitNl, List.mem_singleton] at hq
    subst hq
    rfl
  | cons c rest ih =>
    intro h q hq
    by_cases hc : c = '\n'
    · subst hc
      simp only [splitNl, if_pos] at hq
      rcases List.mem_cons.mp hq with rfl | hq'
      · rfl
      · exact ih (taggedBy_tail h) q hq'
    · rcases hsr : splitNl rest with _ | ⟨p', ps'⟩
      · exact absurd hsr (splitNl_ne_nil rest)
      · simp only [splitNl, if_neg hc, hsr] at hq
        rcases List.mem_cons.mp hq with rfl | hq'
        · refine taggedBy_cons_of ?_ ?_
          · intro hlt
            rcases taggedBy_head h hlt with ⟨b, hbs, hl⟩
            exact ⟨b, hbs, leadsB_splitNl_head rest b p' ps' hsr hl (hnl b hbs)⟩
          · exact ih (taggedBy_tail h) p' (by rw [hsr]; exact List.mem_cons_self _ _)
        · exact ih (taggedBy_tail h) q (by rw [hsr]; exact List.mem_cons_of_mem _ hq')

/-! ### Unfolding equations for the fuel-indexed scanners -/

theorem dropWhile_head_false {p : Char → Bool} :
    ∀ {l : List Char} {x : Char} {xs : List Char},
      l.dropWhile p = x :: xs → p x = false := by
  intro l
  induction l with
  | nil => intro x xs h; cases h
  | cons c rest ih =>
    intro x xs h
    rw [List.dropWhile_cons] at h
    by_cases hc : p c = true
    · rw [if_pos hc] at h
      exact ih h
    · rw [if_neg hc] at h
      injection h with h1 _
      subst h1
      simpa using hc

theorem neC_eq_true {d x : Char} (h : ¬ x = d) : neC d x = true := by
  simp [neC, h]

theorem neC_eq_false {d x : Char} (h : x = d) : neC d x = false := by
  simp [neC, h]

theorem of_neC_false {d x : Char} (h : neC d x = false) : x = d := by
  by_cases hx : x = d
  · exact hx
  · rw [neC_eq_true hx] at h; cases h

theorem subPairF_congr (d : Char) (opn cls : List Char) :
    ∀ (n : Nat) (l : List Char), l.length ≤ n →
      ∀ f1 f2 : Nat, l.length ≤ f1 → l.length ≤ f2 →
        subPairF d opn cls f1 l = subPairF d opn cls f2 l := by
  intro n
  induction n with
  | zero =>
    intro l hl f1 f2 _ _
    have : l = [] := List.length_eq_zero.mp (Nat.le_zero.mp hl)
    subst this
    cases f1 <;> cases f2 <;> rfl
  | succ n ih =>
    intro l hl f1 f2 h1 h2
    cases l with
    | nil => cases f1 <;> cases f2 <;> rfl
    | cons c rest =>
      obtain ⟨f1', rfl⟩ : ∃ k, f1 = k + 1 := ⟨f1 - 1, by simp at h1; omega⟩
      obtain ⟨f2', rfl⟩ : ∃ k, f2 = k + 1 := ⟨f2 - 1, by simp at h2; omega⟩
      have hrest : rest.length ≤ n := by simp at hl; omega
      have hr1 : rest.length ≤ f1' := by simp at h1; omega
      have hr2 : rest.length ≤ f2' := by simp at h2; omega
      simp only [subPairF]
      by_cases hc : c = d
      · rw [if_pos hc, if_pos hc]
        rcases hdw : rest.dropWhile (neC d) with _ | ⟨e, rest2⟩
        · rfl
        · have hr2len : rest2.length ≤ rest.length := by
            have hs := (List.dropWhile_sublist (neC d) (l := rest)).length_le
            rw [hdw] at hs
            simp at hs
            omega
          simp only
          by_cases hg : (rest.takeWhile (neC d)).isEmpty = true
          · rw [if_pos hg, if_pos hg, ih rest hrest f1' f2' hr1 hr2]
          · rw [if_neg hg, if_neg hg,
              ih rest2 (Nat.le_trans hr2len hrest) f1' f2'
                (Nat.le_trans hr2len hr1) (Nat.le_trans hr2len hr2)]
      · rw [if_neg hc, if_neg hc, ih rest hrest f1' f2' hr1 hr2]

theorem subPair_nil (d : Char) (opn cls : List Char) :
    subPair d opn cls [] = [] := rfl

theorem subPair_cons_ne (d : Char) (opn cls : List Char) (c : Char)
    (rest : List Char) (h : ¬ c = d) :
    subPair d opn cls (c :: rest) = c :: subPair d opn cls rest := by
  simp only [subPair, List.length_cons, subPairF]
  rw [if_neg h]

theorem subPair_no_close (d : Char) (opn cls : List Char) (rest : List Char)
    (hdw : rest.dropWhile (neC d) = []) :
    subPair d opn cls (d :: rest) = d :: rest := by
  simp only [subPair, List.length_cons, subPairF, hdw]
  simp

theorem subPair_retry (d : Char) (opn cls : List Char) (rest : List Char)
    (e : Char) (rest2 : List Char)
    (hdw : rest.dropWhile (neC d) = e :: rest2)
    (hg : rest.takeWhile (neC d) = []) :
    subPair d opn cls (d :: rest) = d :: subPair d opn cls rest := by
  simp only [subPair, List.length_cons, subPairF, hdw, hg]
  simp

theorem subPair_match (d : Char) (opn cls : List Char) (rest : List Char)
    (e : Char) (rest2 : List Char)
    (hdw : rest.dropWhile (neC d) = e :: rest2)
    (hg : ¬ rest.takeWhile (neC d) = []) :
    subPair d opn cls (d :: rest) =
      opn ++ rest.takeWhile (neC d) ++ cls ++ subPair d opn cls rest2 := by
  have hr2len : rest2.length ≤ rest.length := by
    have hs := (List.dropWhile_sublist (neC d) (l := rest)).length_le
    rw [hdw] at hs
    simp at hs
    omega
  have hg' : ¬ (rest.takeWhile (neC d)).isEmpty = true := by
    simpa [List.isEmpty_iff] using hg
  simp only [subPair, List.length_cons, subPairF, hdw, if_true]
  rw [if_neg hg']
  rw [subPairF_congr d opn cls rest.length rest2 hr2len rest.length rest2.length
    hr2len (Nat.le_refl _)]

theorem subPair_copy (d : Char) (opn cls : List Char) :
    ∀ (t w : List Char), (∀ x ∈ t, ¬ x = d) →
      subPair d opn cls (t ++ w) = t ++ subPair d opn cls w := by
  intro t
  induction t with
  | nil => intro w _; rfl
  | cons c t' ih =>
    intro w h
    rw [List.cons_append,
      subPair_cons_ne d opn cls c (t' ++ w) (h c (List.mem_cons_self c t')),
      ih w (fun x hx => h x (List.mem_cons_of_mem c hx))]
    rfl

theorem subCodeF_congr :
    ∀ (n : Nat) (l : List Char), l.length ≤ n →
      ∀ f1 f2 : Nat, l.length ≤ f1 → l.length ≤ f2 →
        subCodeF f1 l = subCodeF f2 l := by
  intro n
  induction n with
  | zero =>
    intro l hl f1 f2 _ _
    have : l = [] := List.length_eq_zero.mp (Nat.le_zero.mp hl)
    subst this
    cases f1 <;> cases f2 <;> rfl
  | succ n ih =>
    intro l hl f1 f2 h1 h2
    cases l with
    | nil => cases f1 <;> cases f2 <;> rfl
    | cons c rest =>
      obtain ⟨f1', rfl⟩ : ∃ k, f1 = k + 1 := ⟨f1 - 1, by simp at h1; omega⟩
      obtain ⟨f2', rfl⟩ : ∃ k, f2 = k + 1 := ⟨f2 - 1, by simp at h2; omega⟩
      rcases rest with _ | ⟨x, rest2⟩
      · rfl
      · have hrest : (x :: rest2).length ≤ n := by simp at hl; simp; omega
        have hr1 : (x :: rest2).length ≤ f1' := by simp at h1; simp; omega
        have hr2 : (x :: rest2).length ≤ f2' := by simp at h2; simp; omega
        simp only [subCodeF]
        by_cases hc : c = ' '
        · rw [if_pos hc, if_pos hc]
          by_cases hx : x = '='
          · rw [if_pos hx, if_pos hx]
            rcases hdw : rest2.dropWhile (neC '=') with _ | ⟨e, next⟩
            · simp only [hdw]
              rw [ih (x :: rest2) hrest f1' f2' hr1 hr2]
            · rcases next with _ | ⟨y, rest3⟩
              · simp only [hdw]
                rw [ih (x :: rest2) hrest f1' f2' hr1 hr2]
              · simp only [hdw]
                by_cases hy : y = ' '
                · rw [if_pos hy, if_pos hy]
                  by_cases hg : (rest2.takeWhile (neC '=')).isEmpty = true
                  · rw [if_pos hg, if_pos hg,
                      ih (x :: rest2) hrest f1' f2' hr1 hr2]
                  · have hnl : rest3.length + 2 ≤ rest2.length := by
                      have hs := (List.dropWhile_sublist (neC '=') (l := rest2)).length_le
                      rw [hdw] at hs
                      simp at hs
                      omega
                    have hrl : rest3.length ≤ n := by simp at hrest; omega
                    have hf1 : rest3.length ≤ f1' := by simp at hr1; omega
                    have hf2 : rest3.length ≤ f2' := by simp at hr2; omega
                    rw [if_neg hg, if_neg hg, ih rest3 hrl f1' f2' hf1 hf2]
                · rw [if_neg hy, if_neg hy, ih (x :: rest2) hrest f1' f2' hr1 hr2]
          · rw [if_neg hx, if_neg hx, ih (x :: rest2) hrest f1' f2' hr1 hr2]
        · rw [if_neg hc, if_neg hc, ih (x :: rest2) hrest f1' f2' hr1 hr2]

theorem subCode_nil : subCode [] = [] := rfl

theorem subCode_single (c : Char) : subCode [c] = [c] := rfl

theorem subCode_cons_ne (c : Char) (rest : List Char) (hc : ¬ c = ' ') :
    subCode (c :: rest) = c :: subCode rest := by
  rcases rest with _ | ⟨x, rest2⟩
  · rfl
  · simp only [subCode, List.length_cons, subCodeF]
    rw [if_neg hc]

theorem subCode_sp_ne (x : Char) (r2 : List Char) (hx : ¬ x = '=') :
    subCode (' ' :: x :: r2) = ' ' :: subCode (x :: r2) := by
  simp only [subCode, List.length_cons, subCodeF, if_true]
  rw [if_neg hx]

theorem subCode_noclose (r2 : List Char)
    (hdw : r2.dropWhile (neC '=') = []) :
    subCode (' ' :: '=' :: r2) = ' ' :: subCode ('=' :: r2) := by
  simp only [subCode, List.length_cons, subCodeF, hdw, if_true]

theorem subCode_next_nil (r2 : List Char) (e : Char)
    (hdw : r2.dropWhile (neC '=') = [e]) :
    subCode (' ' :: '=' :: r2) = ' ' :: subCode ('=' :: r2) := by
  simp only [subCode, List.length_cons, subCodeF, hdw, if_true]

theorem subCode_nospace (r2 : List Char) (e y : Char) (r3 : List Char)
    (hdw : r2.dropWhile (neC '=') = e :: y :: r3) (hy : ¬ y = ' ') :
    subCode (' ' :: '=' :: r2) = ' ' :: subCode ('=' :: r2) := by
  simp only [subCode, List.length_cons, subCodeF, hdw, if_true]
  rw [if_neg hy]

theorem subCode_retry_g (r2 : List Char) (e : Char) (r3 : List Char)
    (hdw : r2.dropWhile (neC '=') = e :: ' ' :: r3)
    (hg : r2.takeWhile (neC '=') = []) :
    subCode (' ' :: '=' :: r2) = ' ' :: subCode ('=' :: r2) := by
  simp only [subCode, List.length_cons, subCodeF, hdw, hg, if_true]
  simp

theorem subCode_match (r2 : List Char) (e : Char) (r3 : List Char)
    (hdw : r2.dropWhile (neC '=') = e :: ' ' :: r3)
    (hg : ¬ r2.takeWhile (neC '=') = []) :
    subCode (' ' :: '=' :: r2) =
      " <code>".data ++ r2.takeWhile (neC '=') ++ "</code> ".data ++
        subCode r3 := by
  have hnl : r3.length + 2 ≤ r2.length := by
    have hs := (List.dropWhile_sublist (neC '=') (l := r2)).length_le
    rw [hdw] at hs
    simp at hs
    omega
  have hg' : ¬ (r2.takeWhile (neC '=')).isEmpty = true := by
    simpa [List.isEmpty_iff] using hg
  simp only [subCode, List.length_cons, subCodeF, hdw, if_true]
  rw [if_neg hg']
  rw [subCodeF_congr (r2.length + 1) r3 (by omega) (r2.length + 1) r3.length
    (by omega) (Nat.le_refl _)]

theorem subCode_copy :
    ∀ (t w : List Char), (∀ x ∈ t, ¬ x = ' ') →
      subCode (t ++ w) = t ++ subCode w := by
  intro t
  induction t with
  | nil => intro w _; rfl
  | cons c t' ih =>
    intro w h
    rw [List.cons_append,
      subCode_cons_ne c (t' ++ w) (h c (List.mem_cons_self c t')),
      ih w (fun x hx => h x (List.mem_cons_of_mem c hx))]
    rfl

/-! ### The substitution passes preserve the tag structure -/

theorem leadsB_self_append (t w : List Char) : leadsB t (t ++ w) = true :=
  (leadsB_ex t (t ++ w)).mpr ⟨w, rfl⟩

theorem mem_of_tw {p : Char → Bool} {l : List Char} {x : Char}
    (hx : x ∈ l.takeWhile p) : x ∈ l :=
  (List.takeWhile_sublist p).subset hx

theorem mem_of_dw {p : Char → Bool} {l : List Char} {x : Char}
    (hx : x ∈ l.dropWhile p) : x ∈ l :=
  (List.dropWhile_sublist p).subset hx

theorem tagged_subEm_gen :
    ∀ (n : Nat) (l : List Char), l.length ≤ n → (∀ x ∈ l, ¬ x = '<') →
      taggedBy tagBodies6 (subPair '/' " <em>".data "</em> ".data l) = true := by
  intro n
  induction n with
  | zero =>
    intro l hl _
    have : l = [] := List.length_eq_zero.mp (Nat.le_zero.mp hl)
    subst this
    rfl
  | succ n ih =>
    intro l hl hno
    cases l with
    | nil => rfl
    | cons c rest =>
      have hrest : rest.length ≤ n := by simp at hl; omega
      have hnr : ∀ x ∈ rest, ¬ x = '<' :=
        fun x hx => hno x (List.mem_cons_of_mem c hx)
      by_cases hc : c = '/'
      · subst hc
        rcases hdw : rest.dropWhile (neC '/') with _ | ⟨e, rest2⟩
        · rw [subPair_no_close '/' " <em>".data "</em> ".data rest hdw]
          exact taggedBy_of_no_lt hno
        · by_cases hg : rest.takeWhile (neC '/') = []
          · rw [subPair_retry '/' " <em>".data "</em> ".data rest e rest2 hdw hg]
            exact taggedBy_cons_of (fun h => absurd h (by decide))
              (ih rest hrest hnr)
          · rw [subPair_match '/' " <em>".data "</em> ".data rest e rest2 hdw hg]
            have h2len : rest2.length ≤ n := by
              have hs := (List.dropWhile_sublist (neC '/') (l := rest)).length_le
              rw [hdw] at hs
              simp at hs
              omega
            refine taggedBy_append (taggedBy_append (taggedBy_append ?_ ?_) ?_) ?_
            · decide
            · exact taggedBy_of_no_lt (fun x hx => hnr x (mem_of_tw hx))
            · decide
            · refine ih rest2 h2len (fun x hx => hnr x ?_)
              exact mem_of_dw (by rw [hdw]; exact List.mem_cons_of_mem e hx)
      · rw [subPair_cons_ne '/' " <em>".data "</em> ".data c rest hc]
        exact taggedBy_cons_of
          (fun h => absurd h (hno c (List.mem_cons_self c rest)))
          (ih rest hrest hnr)

theorem tagged_subPair_keep (d : Char) (opn cls : List Char)
    (hopn : taggedBy tagBodies6 opn = true)
    (hcls : taggedBy tagBodies6 cls = true)
    (hd : ∀ b ∈ tagBodies6, ∀ x ∈ b, ¬ x = d) (hdne : ¬ d = '<') :
    ∀ (n : Nat) (l : List Char), l.length ≤ n → taggedBy tagBodies6 l = true →
      taggedBy tagBodies6 (subPair d opn cls l) = true := by
  intro n
  induction n with
  | zero =>
    intro l hl _
    have : l = [] := List.length_eq_zero.mp (Nat.le_zero.mp hl)
    subst this
    rfl
  | succ n ih =>
    intro l hl ht
    cases l with
    | nil => rfl
    | cons c rest =>
      have hrest : rest.length ≤ n := by simp at hl; omega
      by_cases hc : c = d
      · subst hc
        rcases hdw : rest.dropWhile (neC c) with _ | ⟨e, rest2⟩
        · rw [subPair_no_close c opn cls rest hdw]
          exact ht
        · by_cases hg : rest.takeWhile (neC c) = []
          · rw [subPair_retry c opn cls rest e rest2 hdw hg]
            exact taggedBy_cons_of (fun h => absurd h hdne)
              (ih rest hrest (taggedBy_tail ht))
          · rw [subPair_match c opn cls rest e rest2 hdw hg]
            have h2len : rest2.length ≤ n := by
              have hs := (List.dropWhile_sublist (neC c) (l := rest)).length_le
              rw [hdw] at hs
              simp at hs
              omega
            refine taggedBy_append (taggedBy_append (taggedBy_append ?_ ?_) ?_) ?_
            · exact hopn
            · exact taggedBy_takeWhile
                (fun b hb x hx => neC_eq_true (hd b hb x hx))
                (taggedBy_tail ht)
            · exact hcls
            · refine ih rest2 h2len ?_
              have h2 := taggedBy_dropWhile (p := neC c) (taggedBy_tail ht)
              rw [hdw] at h2
              exact taggedBy_tail h2
      · rw [subPair_cons_ne d opn cls c rest hc]
        refine taggedBy_cons_of ?_ (ih rest hrest (taggedBy_tail ht))
        intro hlt
        rcases taggedBy_head ht hlt with ⟨b, hbs, hl2⟩
        obtain ⟨z, rfl⟩ := (leadsB_ex b rest).mp hl2
        rw [subPair_copy d opn cls b z (hd b hbs)]
        exact ⟨b, hbs, leadsB_self_append b _⟩

theorem tagged_subCode_gen :
    ∀ (n : Nat) (l : List Char), l.length ≤ n → taggedBy tagBodies6 l = true →
      taggedBy tagBodies6 (subCode l) = true := by
  intro n
  induction n with
  | zero =>
    intro l hl _
    have : l = [] := List.length_eq_zero.mp (Nat.le_zero.mp hl)
    subst this
    rfl
  | succ n ih =>
    intro l hl ht
    cases l with
    | nil => rfl
    | cons c rest =>
      have hrest : rest.length ≤ n := by simp at hl; omega
      have hcons_ne : ∀ hc : ¬ c = ' ',
          taggedBy tagBodies6 (subCode (c :: rest)) = true := by
        intro hc
        rw [subCode_cons_ne c rest hc]
        refine taggedBy_cons_of ?_ (ih rest hrest (taggedBy_tail ht))
        intro hlt
        rcases taggedBy_head ht hlt with ⟨b, hbs, hl2⟩
        obtain ⟨z, rfl⟩ := (leadsB_ex b rest).mp hl2
        have hbsp : ∀ x ∈ b, ¬ x = ' ' :=
          (by decide : ∀ b2 ∈ tagBodies6, ∀ x ∈ b2, ¬ x = ' ') b hbs
        rw [subCode_copy b z hbsp]
        exact ⟨b, hbs, leadsB_self_append b _⟩
      by_cases hc : c = ' '
      · subst hc
        rcases rest with _ | ⟨x, rest2⟩
        · rw [subCode_single]
          exact ht
        · have hr2 : rest2.length ≤ n := by simp at hrest; omega
          by_cases hx : x = '='
          · subst hx
            rcases hdw : rest2.dropWhile (neC '=') with _ | ⟨e, next⟩
            · rw [subCode_noclose rest2 hdw]
              exact taggedBy_cons_of (fun h => absurd h (by decide))
                (ih ('=' :: rest2) hrest (taggedBy_tail ht))
            · rcases next with _ | ⟨y, rest3⟩
              · rw [subCode_next_nil rest2 e hdw]
                exact taggedBy_cons_of (fun h => absurd h (by decide))
                  (ih ('=' :: rest2) hrest (taggedBy_tail ht))
              · by_cases hy : y = ' '
                · subst hy
                  by_cases hg : rest2.takeWhile (neC '=') = []
                  · rw [subCode_retry_g rest2 e rest3 hdw hg]
                    exact taggedBy_cons_of (fun h => absurd h (by decide))
                      (ih ('=' :: rest2) hrest (taggedBy_tail ht))
                  · rw [subCode_match rest2 e rest3 hdw hg]
                    have h3len : rest3.length ≤ n := by
                      have hs := (List.dropWhile_sublist (neC '=') (l := rest2)).length_le
                      rw [hdw] at hs
                      simp at hs
                      simp at hrest
                      omega
                    refine taggedBy_append (taggedBy_append (taggedBy_append ?_ ?_) ?_) ?_
                    · decide
                    · exact taggedBy_takeWhile
                        (fun b hb x hx => neC_eq_true
                          ((by decide : ∀ b2 ∈ tagBodies6, ∀ x2 ∈ b2, ¬ x2 = '=') b hb x hx))
                        (taggedBy_tail (taggedBy_tail ht))
                    · decide
                    · refine ih rest3 h3len ?_
                      have h2 := taggedBy_dropWhile (p := neC '=')
                        (taggedBy_tail (taggedBy_tail ht))
                      rw [hdw] at h2
                      exact taggedBy_tail (taggedBy_tail h2)
                · rw [subCode_nospace rest2 e y rest3 hdw hy]
                  exact taggedBy_cons_of (fun h => absurd h (by decide))
                    (ih ('=' :: rest2) hrest (taggedBy_tail ht))
          · rw [subCode_sp_ne x rest2 hx]
            exact taggedBy_cons_of (fun h => absurd h (by decide))
              (ih (x :: rest2) hrest (taggedBy_tail ht))
      · exact hcons_ne hc

theorem escapeL_no_lt : ∀ (l : List Char), ∀ x ∈ escapeL l, ¬ x = '<' := by
  intro l
  induction l with
  | nil => intro x hx; cases hx
  | cons c rest ih =>
    intro x hx
    have hesc : escapeL (c :: rest) = escChar c ++ escapeL rest := by
      simp [escapeL]
    rw [hesc] at hx
    rcases List.mem_append.mp hx with hx' | hx'
    · revert hx'
      unfold escChar
      split_ifs with h1 h2 h3 h4 h5
      · exact fun hx' => (by decide : ∀ y ∈ "&amp;".data, ¬ y = '<') x hx'
      · exact fun hx' => (by decide : ∀ y ∈ "&lt;".data, ¬ y = '<') x hx'
      · exact fun hx' => (by decide : ∀ y ∈ "&gt;".data, ¬ y = '<') x hx'
      · exact fun hx' => (by decide : ∀ y ∈ "&quot;".data, ¬ y = '<') x hx'
      · exact fun hx' => (by decide : ∀ y ∈ "&#x27;".data, ¬ y = '<') x hx'
      · intro hx'
        have : x = c := by simpa using hx'
        subst this
        exact h2
    · exact ih x hx'

/-! ### Counting the list-container tags -/

theorem countP_head_false {p : List Char} {c : Char} {rec : List Char}
    (h : leadsB p (c :: rec) = false) :
    countP p (c :: rec) = countP p rec := by
  show (if leadsB p (c :: rec) then 1 else 0) + countP p rec = countP p rec
  rw [h]
  simp

theorem countP_append_tagged (p : List Char)
    (hp : p = "<ul>".data ∨ p = "</ul>".data) :
    ∀ (a b : List Char), taggedBy tagBodiesOut a = true →
      countP p (a ++ b) = countP p a + countP p b := by
  intro a
  induction a with
  | nil =>
    intro b _
    simp [countP]
  | cons c a' ih =>
    intro b ht
    have ht' := taggedBy_tail ht
    have hhead : leadsB p (c :: (a' ++ b)) = leadsB p (c :: a') := by
      by_cases hc : c = '<'
      · subst hc
        rcases taggedBy_head ht rfl with ⟨t, hts, hl2⟩
        obtain ⟨z, rfl⟩ := (leadsB_ex t a').mp hl2
        simp only [tagBodiesOut, tagBodies6, List.mem_append, List.mem_cons,
          List.not_mem_nil, or_false] at hts
        rcases hp with rfl | rfl <;>
          rcases hts with (rfl|rfl|rfl|rfl|rfl|rfl)|(rfl|rfl|rfl|rfl|rfl) <;>
          rfl
      · have hcc : ¬ ('<' = c) := fun h => hc h.symm
        rcases hp with rfl | rfl <;> simp [leadsB, hcc]
    show (if leadsB p (c :: (a' ++ b)) then 1 else 0) + countP p (a' ++ b) =
      ((if leadsB p (c :: a') then 1 else 0) + countP p a') + countP p b
    rw [hhead, ih b ht']
    omega

theorem countP_zero_tagged6 (p : List Char)
    (hp : p = "<ul>".data ∨ p = "</ul>".data) :
    ∀ a : List Char, taggedBy tagBodies6 a = true → countP p a = 0 := by
  intro a
  induction a with
  | nil => intro _; rfl
  | cons c a' ih =>
    intro ht
    have ht' := taggedBy_tail ht
    have hhead : leadsB p (c :: a') = false := by
      by_cases hc : c = '<'
      · subst hc
        rcases taggedBy_head ht rfl with ⟨t, hts, hl2⟩
        obtain ⟨z, rfl⟩ := (leadsB_ex t a').mp hl2
        simp only [tagBodies6, List.mem_cons, List.not_mem_nil, or_false] at hts
        rcases hp with rfl | rfl <;>
          rcases hts with rfl|rfl|rfl|rfl|rfl|rfl <;>
          rfl
      · have hcc : ¬ ('<' = c) := fun h => hc h.symm
        rcases hp with rfl | rfl <;> simp [leadsB, hcc]
    show (if leadsB p (c :: a') then 1 else 0) + countP p a' = 0
    rw [hhead, ih ht']
    simp

theorem taggedOut_drain : ∀ stack : List Nat,
    taggedBy tagBodiesOut (drain stack) = true := by
  intro stack
  induction stack with
  | nil => rfl
  | cons d rest ih =>
    show taggedBy tagBodiesOut ("</ul>".data ++ drain rest) = true
    exact taggedBy_append (by decide) ih

theorem countP_drain_close : ∀ stack : List Nat,
    countP "</ul>".data (drain stack) = stack.length := by
  intro stack
  induction stack with
  | nil => rfl
  | cons d rest ih =>
    show countP "</ul>".data ("</ul>".data ++ drain rest) = rest.length + 1
    rw [countP_append_tagged "</ul>".data (Or.inr rfl) "</ul>".data (drain rest)
      (by decide), ih]
    have h1 : countP "</ul>".data "</ul>".data = 1 := by decide
    omega

theorem countP_drain_open : ∀ stack : List Nat,
    countP "<ul>".data (drain stack) = 0 := by
  intro stack
  induction stack with
  | nil => rfl
  | cons d rest ih =>
    show countP "<ul>".data ("</ul>".data ++ drain rest) = 0
    rw [countP_append_tagged "<ul>".data (Or.inl rfl) "</ul>".data (drain rest)
      (by decide), ih]
    have h1 : countP "<ul>".data "</ul>".data = 0 := by decide
    omega

theorem countP_item (p : List Char)
    (hp : p = "<ul>".data ∨ p = "</ul>".data) (content rec : List Char)
    (hc : taggedBy tagBodies6 content = true) :
    countP p ("<li>".data ++ (content ++ ("</li>".data ++ '\n' :: rec))) =
      countP p rec := by
  rw [countP_append_tagged p hp "<li>".data _ (by decide),
      countP_append_tagged p hp content _ (taggedBy_mono (by decide) hc),
      countP_append_tagged p hp "</li>".data ('\n' :: rec) (by decide),
      countP_zero_tagged6 p hp content hc]
  have hnl : countP p ('\n' :: rec) = countP p rec := by
    refine countP_head_false ?_
    rcases hp with rfl | rfl <;> rfl
  rw [hnl]
  rcases hp with rfl | rfl
  · have c1 : countP "<ul>".data "<li>".data = 0 := by decide
    have c2 : countP "<ul>".data "</li>".data = 0 := by decide
    omega
  · have c1 : countP "</ul>".data "<li>".data = 0 := by decide
    have c2 : countP "</ul>".data "</li>".data = 0 := by decide
    omega

theorem countP_tag_item (p tag : List Char)
    (hp : p = "<ul>".data ∨ p = "</ul>".data)
    (htag : taggedBy tagBodiesOut tag = true) (content rec : List Char)
    (hc : taggedBy tagBodies6 content = true) :
    countP p (tag ++ ("<li>".data ++ (content ++ ("</li>".data ++ '\n' :: rec)))) =
      countP p tag + countP p rec := by
  rw [countP_append_tagged p hp tag _ htag, countP_item p hp content rec hc]

theorem countP_text_out (p : List Char)
    (hp : p = "<ul>".data ∨ p = "</ul>".data) (stack : List Nat)
    (content rec : List Char) (hc : taggedBy tagBodies6 content = true) :
    countP p (drain stack ++ (content ++ ("<br>".data ++ '\n' :: rec))) =
      countP p (drain stack) + countP p rec := by
  rw [countP_append_tagged p hp (drain stack) _ (taggedOut_drain stack),
      countP_append_tagged p hp content _ (taggedBy_mono (by decide) hc),
      countP_append_tagged p hp "<br>".data ('\n' :: rec) (by decide),
      countP_zero_tagged6 p hp content hc]
  have hnl : countP p ('\n' :: rec) = countP p rec := by
    refine countP_head_false ?_
    rcases hp with rfl | rfl <;> rfl
  rw [hnl]
  rcases hp with rfl | rfl
  · have c1 : countP "<ul>".data "<br>".data = 0 := by decide
    omega
  · have c1 : countP "</ul>".data "<br>".data = 0 := by decide
    omega

theorem ulO_data : ("<ul>".data : List Char) = ['<', 'u', 'l', '>'] := rfl

theorem ulC_data : ("</ul>".data : List Char) = ['<', '/', 'u', 'l', '>'] := rfl

theorem runLines_balance :
    ∀ (lines : List (List Char)) (stack : List Nat),
      (∀ l ∈ lines, taggedBy tagBodies6 l = true) →
      countP "</ul>".data (runLines stack lines) =
        countP "<ul>".data (runLines stack lines) + stack.length := by
  intro lines
  induction lines with
  | nil =>
    intro stack _
    show countP "</ul>".data (drain stack) =
      countP "<ul>".data (drain stack) + stack.length
    rw [countP_drain_close, countP_drain_open]
    omega
  | cons line ls ih =>
    intro stack hts
    have htl := hts line (List.mem_cons_self _ _)
    have htls : ∀ l ∈ ls, taggedBy tagBodies6 l = true :=
      fun l hl => hts l (List.mem_cons_of_mem _ hl)
    have hcontent1 : taggedBy tagBodies6 ((pyStrip line).drop 1) = true :=
      taggedBy_drop_one (taggedBy_pyStrip (by decide) htl)
    have hcontent : taggedBy tagBodies6 (pyStrip line) = true :=
      taggedBy_pyStrip (by decide) htl
    by_cases hl : isListLine line = true
    · rcases stack with _ | ⟨top, rest⟩
      · -- empty stack: push a level
        have hpl : processLine [] line = (lineLevel line :: [],
            "<ul>".data ++ "<li>".data ++ (pyStrip line).drop 1 ++
              "</li>".data ++ ['\n']) := by
          simp [processLine, hl]
        show countP "</ul>".data
            ((processLine [] line).2 ++ runLines (processLine [] line).1 ls) =
          countP "<ul>".data
            ((processLine [] line).2 ++ runLines (processLine [] line).1 ls) + 0
        rw [hpl]
        simp only [List.append_assoc, List.singleton_append]
        rw [countP_tag_item "</ul>".data "<ul>".data (Or.inr rfl) (by decide) _ _
          hcontent1]
        rw [countP_tag_item "<ul>".data "<ul>".data (Or.inl rfl) (by decide) _ _
          hcontent1]
        have hc1 : countP "</ul>".data "<ul>".data = 0 := by decide
        have hc2 : countP "<ul>".data "<ul>".data = 1 := by decide
        have hih := ih [lineLevel line] htls
        simp only [List.length_cons, List.length_nil] at hih
        simp only [ulO_data, ulC_data] at *
        omega
      · by_cases h1 : top < lineLevel line
        · -- deeper: push a level
          have hpl : processLine (top :: rest) line = (lineLevel line :: top :: rest,
              "<ul>".data ++ "<li>".data ++ (pyStrip line).drop 1 ++
                "</li>".data ++ ['\n']) := by
            simp [processLine, hl, h1]
          show countP "</ul>".data
              ((processLine (top :: rest) line).2 ++
                runLines (processLine (top :: rest) line).1 ls) =
            countP "<ul>".data
              ((processLine (top :: rest) line).2 ++
                runLines (processLine (top :: rest) line).1 ls) +
              (top :: rest).length
          rw [hpl]
          simp only [List.append_assoc, List.singleton_append, List.length_cons]
          rw [countP_tag_item "</ul>".data "<ul>".data (Or.inr rfl) (by decide) _ _
            hcontent1]
          rw [countP_tag_item "<ul>".data "<ul>".data (Or.inl rfl) (by decide) _ _
            hcontent1]
          have hc1 : countP "</ul>".data "<ul>".data = 0 := by decide
          have hc2 : countP "<ul>".data "<ul>".data = 1 := by decide
          have hih := ih (lineLevel line :: top :: rest) htls
          simp only [List.length_cons] at hih
          simp only [ulO_data, ulC_data] at *
          omega
        · by_cases h2 : top > lineLevel line
          · -- shallower: close and pop one level
            have hpl : processLine (top :: rest) line = (rest,
                "</ul>".data ++ "<li>".data ++ (pyStrip line).drop 1 ++
                  "</li>".data ++ ['\n']) := by
              simp [processLine, hl, h1, h2]
            show countP "</ul>".data
                ((processLine (top :: rest) line).2 ++
                  runLines (processLine (top :: rest) line).1 ls) =
              countP "<ul>".data
                ((processLine (top :: rest) line).2 ++
                  runLines (processLine (top :: rest) line).1 ls) +
                (top :: rest).length
            rw [hpl]
            simp only [List.append_assoc, List.singleton_append, List.length_cons]
            rw [countP_tag_item "</ul>".data "</ul>".data (Or.inr rfl) (by decide)
              _ _ hcontent1]
            rw [countP_tag_item "<ul>".data "</ul>".data (Or.inl rfl) (by decide)
              _ _ hcontent1]
            have hc1 : countP "</ul>".data "</ul>".data = 1 := by decide
            have hc2 : countP "<ul>".data "</ul>".data = 0 := by decide
            have hih := ih rest htls
            simp only [ulO_data, ulC_data] at *
            omega
          · -- same depth: just the item
            have hpl : processLine (top :: rest) line = (top :: rest,
                "<li>".data ++ (pyStrip line).drop 1 ++ "</li>".data ++ ['\n']) := by
              simp [processLine, hl, h1, h2]
            show countP "</ul>".data
                ((processLine (top :: rest) line).2 ++
                  runLines (processLine (top :: rest) line).1 ls) =
              countP "<ul>".data
                ((processLine (top :: rest) line).2 ++
                  runLines (processLine (top :: rest) line).1 ls) +
                (top :: rest).length
            rw [hpl]
            simp only [List.append_assoc, List.singleton_append, List.length_cons]
            rw [countP_item "</ul>".data (Or.inr rfl) _ _ hcontent1]
            rw [countP_item "<ul>".data (Or.inl rfl) _ _ hcontent1]
            have hih := ih (top :: rest) htls
            simp only [List.length_cons] at hih
            simp only [ulO_data, ulC_data] at *
            omega
    · -- not a list line: drain, then the text
      have hpl : processLine stack line = ([],
          drain stack ++ pyStrip line ++ "<br>".data ++ ['\n']) := by
        simp [processLine, hl]
      show countP "</ul>".data
          ((processLine stack line).2 ++ runLines (processLine stack line).1 ls) =
        countP "<ul>".data
          ((processLine stack line).2 ++ runLines (processLine stack line).1 ls) +
          stack.length
      rw [hpl]
      simp only [List.append_assoc, List.singleton_append]
      rw [countP_text_out "</ul>".data (Or.inr rfl) stack _ _ hcontent]
      rw [countP_text_out "<ul>".data (Or.inl rfl) stack _ _ hcontent]
      rw [countP_drain_close, countP_drain_open]
      have hih := ih [] htls
      simp only [List.length_nil] at hih
      simp only [ulO_data, ulC_data] at *
      omega

theorem lines_tagged (l : List Char) :
    ∀ q ∈ splitNl (subCode (subStrong (subEm (escapeL l)))),
      taggedBy tagBodies6 q = true := by
  have h1 : taggedBy tagBodies6 (subEm (escapeL l)) = true :=
    tagged_subEm_gen (escapeL l).length (escapeL l) (Nat.le_refl _)
      (escapeL_no_lt l)
  have h2 : taggedBy tagBodies6 (subStrong (subEm (escapeL l))) = true :=
    tagged_subPair_keep '*' " <strong>".data "</strong> ".data (by decide)
      (by decide) (by decide) (by decide) _ _ (Nat.le_refl _) h1
  have h3 : taggedBy tagBodies6 (subCode (subStrong (subEm (escapeL l)))) = true :=
    tagged_subCode_gen _ _ (Nat.le_refl _) h2
  exact taggedBy_splitNl (by decide) _ h3

/-- C2: for every input string, the number of occurrences of the opening
list-container tag in the output of the transformer equals the number of
occurrences of the closing list-container tag: every opened list container
is closed exactly once. -/
theorem htmlify_ul_balance (s : String) :
    countP "<ul>".data (htmlify s).data = countP "</ul>".data (htmlify s).data := by
  show countP "<ul>".data (htmlifyL s.data) = countP "</ul>".data (htmlifyL s.data)
  unfold htmlifyL
  have hb := runLines_balance
    (splitNl (subCode (subStrong (subEm (escapeL (s.data.dropWhile (eqC '*')))))))
    [] (lines_tagged (s.data.dropWhile (eqC '*')))
  simp only [List.length_nil, Nat.add_zero] at hb
  exact hb.symm

/-! ## Occurrence preservation through the pipeline -/

theorem occursB_ex (t : List Char) :
    ∀ l, occursB t l = true ↔ ∃ u v, u ++ t ++ v = l := by
  intro l
  induction l with
  | nil =>
    constructor
    · intro h
      have ht := (leadsB_nil_iff t).mp h
      subst ht
      exact ⟨[], [], rfl⟩
    · rintro ⟨u, v, huv⟩
      rcases List.append_eq_nil.mp huv with ⟨h1, hv⟩
      rcases List.append_eq_nil.mp h1 with ⟨hu, ht⟩
      subst ht
      exact (leadsB_nil_iff []).mpr rfl
  | cons c rest ih =>
    constructor
    · intro h
      rcases occursB_cons_elim h with h' | h'
      · obtain ⟨r, hr⟩ := (leadsB_ex t (c :: rest)).mp h'
        exact ⟨[], r, by simpa using hr⟩
      · obtain ⟨u, v, huv⟩ := ih.mp h'
        exact ⟨c :: u, v, by simp [← huv]⟩
    · rintro ⟨u, v, huv⟩
      rcases u with _ | ⟨u0, u'⟩
      · simp only [List.nil_append] at huv
        have h2 : leadsB t (c :: rest) = true := (leadsB_ex _ _).mpr ⟨v, huv⟩
        simp [occursB, h2]
      · have h1 : u0 = c ∧ u' ++ t ++ v = rest := by
          simpa using huv
        exact occursB_cons c (ih.mpr ⟨u', v, h1.2⟩)

theorem occursB_escape {t l : List Char} (h : occursB t l = true) :
    occursB (escapeL t) (escapeL l) = true := by
  obtain ⟨u, v, rfl⟩ := (occursB_ex t _).mp h
  have he : escapeL (u ++ t ++ v) = escapeL u ++ escapeL t ++ escapeL v := by
    simp [escapeL]
  rw [he]
  exact (occursB_ex _ _).mpr ⟨escapeL u, escapeL v, rfl⟩

theorem leadsB_cons_same {t w : List Char} (c : Char)
    (h : leadsB t w = true) : leadsB (c :: t) (c :: w) = true := by
  simpa [leadsB] using h

theorem occursB_subPair (d : Char) (opn cls : List Char) {t : List Char}
    (hne : t ≠ []) (hd : ∀ x ∈ t, ¬ x = d) :
    ∀ (n : Nat) (l : List Char), l.length ≤ n → occursB t l = true →
      occursB t (subPair d opn cls l) = true := by
  intro n
  induction n with
  | zero =>
    intro l hl h
    have : l = [] := List.length_eq_zero.mp (Nat.le_zero.mp hl)
    subst this
    exact absurd ((leadsB_nil_iff t).mp h) hne
  | succ n ih =>
    intro l hl h
    cases l with
    | nil => exact absurd ((leadsB_nil_iff t).mp h) hne
    | cons c rest =>
      have hrest : rest.length ≤ n := by simp at hl; omega
      by_cases hc : c = d
      · subst hc
        have hcm : c ∉ t := fun hmem => hd c hmem rfl
        have hro : occursB t rest = true := occursB_drop_head hcm h
        rcases hdw : rest.dropWhile (neC c) with _ | ⟨e, rest2⟩
        · rw [subPair_no_close c opn cls rest hdw]
          exact h
        · by_cases hg : rest.takeWhile (neC c) = []
          · rw [subPair_retry c opn cls rest e rest2 hdw hg]
            exact occursB_cons c (ih rest hrest hro)
          · rw [subPair_match c opn cls rest e rest2 hdw hg]
            have he : e = c := of_neC_false (dropWhile_head_false hdw)
            subst he
            have hsplit : rest.takeWhile (neC e) ++ (e :: rest2) = rest := by
              rw [← hdw]
              exact List.takeWhile_append_dropWhile (neC e) rest
            rw [← hsplit] at hro
            rcases occursB_split rest2 hcm (rest.takeWhile (neC e)) hro with
              hocc | hocc
            · have h1 : occursB t
                  (rest.takeWhile (neC e) ++
                    (cls ++ subPair e opn cls rest2)) = true :=
                occursB_append_left _ hocc
              have h2 := occursB_append_right opn h1
              simpa [List.append_assoc] using h2
            · have hlen2 : rest2.length ≤ n := by
                have hs := (List.dropWhile_sublist (neC e) (l := rest)).length_le
                rw [hdw] at hs
                simp at hs
                omega
              have h1 := ih rest2 hlen2 hocc
              have h2 := occursB_append_right
                (opn ++ rest.takeWhile (neC e) ++ cls) h1
              simpa [List.append_assoc] using h2
      · rw [subPair_cons_ne d opn cls c rest hc]
        rcases occursB_cons_elim h with h' | h'
        · rcases leadsB_cons_shape h' with rfl | ⟨t', rfl, hlt⟩
          · exact absurd rfl hne
          · obtain ⟨z, rfl⟩ := (leadsB_ex t' rest).mp hlt
            rw [subPair_copy d opn cls t' z
              (fun x hx => hd x (List.mem_cons_of_mem c hx))]
            exact occursB_of_leadsB
              (leadsB_cons_same c (leadsB_self_append t' _))
        · exact occursB_cons c (ih rest hrest h')

theorem occursB_subCode {t : List Char}
    (hne : t ≠ []) (hsp : ∀ x ∈ t, ¬ x = ' ') (heq : ∀ x ∈ t, ¬ x = '=') :
    ∀ (n : Nat) (l : List Char), l.length ≤ n → occursB t l = true →
      occursB t (subCode l) = true := by
  intro n
  induction n with
  | zero =>
    intro l hl h
    have : l = [] := List.length_eq_zero.mp (Nat.le_zero.mp hl)
    subst this
    exact absurd ((leadsB_nil_iff t).mp h) hne
  | succ n ih =>
    intro l hl h
    cases l with
    | nil => exact absurd ((leadsB_nil_iff t).mp h) hne
    | cons c rest =>
      have hrest : rest.length ≤ n := by simp at hl; omega
      by_cases hc : c = ' '
      · subst hc
        have hcm : ' ' ∉ t := fun hmem => hsp ' ' hmem rfl
        have hro : occursB t rest = true := occursB_drop_head hcm h
        rcases rest with _ | ⟨x, rest2⟩
        · exact absurd ((leadsB_nil_iff t).mp hro) hne
        · by_cases hx : x = '='
          · subst hx
            have hem : '=' ∉ t := fun hmem => heq '=' hmem rfl
            have hro2 : occursB t rest2 = true := occursB_drop_head hem hro
            rcases hdw : rest2.dropWhile (neC '=') with _ | ⟨e, next⟩
            · rw [subCode_noclose rest2 hdw]
              exact occursB_cons ' ' (ih _ hrest hro)
            · rcases next with _ | ⟨y, rest3⟩
              · rw [subCode_next_nil rest2 e hdw]
                exact occursB_cons ' ' (ih _ hrest hro)
              · by_cases hy : y = ' '
                · subst hy
                  by_cases hg : rest2.takeWhile (neC '=') = []
                  · rw [subCode_retry_g rest2 e rest3 hdw hg]
                    exact occursB_cons ' ' (ih _ hrest hro)
                  · rw [subCode_match rest2 e rest3 hdw hg]
                    have he : e = '=' := of_neC_false (dropWhile_head_false hdw)
                    subst he
                    have hsplit : rest2.takeWhile (neC '=') ++
                        ('=' :: ' ' :: rest3) = rest2 := by
                      rw [← hdw]
                      exact List.takeWhile_append_dropWhile (neC '=') rest2
                    rw [← hsplit] at hro2
                    rcases occursB_split (' ' :: rest3) hem
                        (rest2.takeWhile (neC '=')) hro2 with hocc | hocc
                    · have h1 : occursB t
                          (rest2.takeWhile (neC '=') ++
                            ("</code> ".data ++ subCode rest3)) = true :=
                        occursB_append_left _ hocc
                      have h2 := occursB_append_right " <code>".data h1
                      simpa [List.append_assoc] using h2
                    · have hocc3 : occursB t rest3 = true :=
                        occursB_drop_head hcm hocc
                      have hlen3 : rest3.length ≤ n := by
                        have hs := (List.dropWhile_sublist (neC '=')
                          (l := rest2)).length_le
                        rw [hdw] at hs
                        simp at hs
                        simp at hrest
                        omega
                      have h1 := ih rest3 hlen3 hocc3
                      have h2 := occursB_append_right
                        (" <code>".data ++ rest2.takeWhile (neC '=') ++
                          "</code> ".data) h1
                      simpa [List.append_assoc] using h2
                · rw [subCode_nospace rest2 e y rest3 hdw hy]
                  exact occursB_cons ' ' (ih _ hrest hro)
          · rw [subCode_sp_ne x rest2 hx]
            exact occursB_cons ' ' (ih _ hrest hro)
      · rw [subCode_cons_ne c rest hc]
        rcases occursB_cons_elim h with h' | h'
        · rcases leadsB_cons_shape h' with rfl | ⟨t', rfl, hlt⟩
          · exact absurd rfl hne
          · obtain ⟨z, rfl⟩ := (leadsB_ex t' rest).mp hlt
            rw [subCode_copy t' z
              (fun x hx => hsp x (List.mem_cons_of_mem c hx))]
            exact occursB_of_leadsB
              (leadsB_cons_same c (leadsB_self_append t' _))
        · exact occursB_cons c (ih rest hrest h')

theorem occursB_splitNl {t : List Char} (hnl : '\n' ∉ t) (hne : t ≠ []) :
    ∀ l, occursB t l = true → ∃ q ∈ splitNl l, occursB t q = true := by
  intro l
  induction l with
  | nil => intro h; exact absurd ((leadsB_nil_iff t).mp h) hne
  | cons c rest ih =>
    intro h
    by_cases hc : c = '\n'
    · subst hc
      have h' : occursB t rest = true := occursB_drop_head hnl h
      obtain ⟨q, hq, hocc⟩ := ih h'
      refine ⟨q, ?_, hocc⟩
      simp only [splitNl, if_pos]
      exact List.mem_cons_of_mem [] hq
    · rcases hsr : splitNl rest with _ | ⟨p, ps⟩
      · exact absurd hsr (splitNl_ne_nil rest)
      · have hmem : splitNl (c :: rest) = (c :: p) :: ps := by
          simp [splitNl, hc, hsr]
        rcases occursB_cons_elim h with h' | h'
        · have h2 := leadsB_splitNl_head (c :: rest) t (c :: p) ps hmem h'
            (fun x hx hxeq => hnl (hxeq ▸ hx))
          exact ⟨c :: p, by rw [hmem]; exact List.mem_cons_self _ _,
            occursB_of_leadsB h2⟩
        · obtain ⟨q, hq, hocc⟩ := ih h'
          rw [hsr] at hq
          rcases List.mem_cons.mp hq with rfl | hq'
          · exact ⟨c :: q, by rw [hmem]; exact List.mem_cons_self _ _,
              occursB_cons c hocc⟩
          · exact ⟨q, by rw [hmem]; exact List.mem_cons_of_mem _ hq', hocc⟩

theorem occursB_rstrip {t : List Char}
    (hns : ∀ x ∈ t, pyIsSpace x = false) (hne : t ≠ []) :
    ∀ l, occursB t l = true → occursB t (rstrip l) = true := by
  intro l
  induction l with
  | nil => intro h; exact absurd ((leadsB_nil_iff t).mp h) hne
  | cons c rest ih =>
    intro h
    rcases occursB_cons_elim h with h' | h'
    · exact occursB_of_leadsB (leadsB_rstrip (c :: rest) t hns hne h')
    · have h2 := ih h'
      rcases hr : rstrip rest with _ | ⟨y, r⟩
      · rw [hr] at h2
        exact absurd ((leadsB_nil_iff t).mp h2) hne
      · rw [hr] at h2
        have hcr : rstrip (c :: rest) = c :: y :: r := by
          simp [rstrip, hr]
        rw [hcr]
        exact occursB_cons c h2

theorem occursB_pyStrip {t : List Char}
    (hns : ∀ x ∈ t, pyIsSpace x = false) (hne : t ≠ [])
    {l : List Char} (h : occursB t l = true) :
    occursB t (pyStrip l) = true := by
  refine occursB_rstrip hns hne _ (occursB_dropWhile ?_ l h)
  intro x hx hmem
  have h1 := hns x hmem
  rw [hx] at h1
  cases h1

theorem pyStrip_head_dash {line : List Char} (h : isListLine line = true) :
    ∃ z, pyStrip line = '-' :: z := by
  rcases hdw : line.dropWhile pyIsSpace with _ | ⟨c, w⟩
  · have hcalc : isListLine line = false := by
      unfold isListLine
      rw [hdw]
    rw [hcalc] at h
    cases h
  · by_cases hc : c = '-'
    · subst hc
      unfold pyStrip
      rw [hdw]
      have hds : pyIsSpace '-' = false := by decide
      rcases hr : rstrip w with _ | ⟨y, r⟩
      · exact ⟨[], by simp [rstrip, hr, hds]⟩
      · exact ⟨y :: r, by simp [rstrip, hr]⟩
    · have hcalc : isListLine line = false := by
        unfold isListLine
        rw [hdw]
        show (if c = '-' then true else false) = false
        exact if_neg hc
      rw [hcalc] at h
      cases h

theorem occursB_runLines {t : List Char}
    (hns : ∀ x ∈ t, pyIsSpace x = false) (hne : t ≠ []) (hdash : '-' ∉ t) :
    ∀ (lines : List (List Char)) (stack : List Nat) (line : List Char),
      line ∈ lines → occursB t line = true →
      occursB t (runLines stack lines) = true := by
  intro lines
  induction lines with
  | nil => intro stack line hmem; cases hmem
  | cons l1 ls ih =>
    intro stack line hmem hocc
    show occursB t
      ((processLine stack l1).2 ++ runLines (processLine stack l1).1 ls) = true
    rcases List.mem_cons.mp hmem with rfl | hmem'
    · have hsocc : occursB t (pyStrip line) = true :=
        occursB_pyStrip hns hne hocc
      by_cases hl : isListLine line = true
      · obtain ⟨z, hz⟩ := pyStrip_head_dash hl
        have hdrop : occursB t ((pyStrip line).drop 1) = true := by
          rw [hz] at hsocc ⊢
          simpa using occursB_drop_head hdash hsocc
        have hout : occursB t (processLine stack line).2 = true := by
          rcases stack with _ | ⟨top, rest⟩
          · have hpl : processLine [] line = (lineLevel line :: [],
                "<ul>".data ++ "<li>".data ++ (pyStrip line).drop 1 ++
                  "</li>".data ++ ['\n']) := by
              simp [processLine, hl]
            rw [hpl]
            simp only [List.append_assoc]
            exact occursB_append_right "<ul>".data
              (occursB_append_right "<li>".data (occursB_append_left _ hdrop))
          · by_cases h1 : top < lineLevel line
            · have hpl : processLine (top :: rest) line =
                  (lineLevel line :: top :: rest,
                  "<ul>".data ++ "<li>".data ++ (pyStrip line).drop 1 ++
                    "</li>".data ++ ['\n']) := by
                simp [processLine, hl, h1]
              rw [hpl]
              simp only [List.append_assoc]
              exact occursB_append_right "<ul>".data
                (occursB_append_right "<li>".data (occursB_append_left _ hdrop))
            · by_cases h2 : top > lineLevel line
              · have hpl : processLine (top :: rest) line = (rest,
                    "</ul>".data ++ "<li>".data ++ (pyStrip line).drop 1 ++
                      "</li>".data ++ ['\n']) := by
                  simp [processLine, hl, h1, h2]
                rw [hpl]
                simp only [List.append_assoc]
                exact occursB_append_right "</ul>".data
                  (occursB_append_right "<li>".data (occursB_append_left _ hdrop))
              · have hpl : processLine (top :: rest) line = (top :: rest,
                    "<li>".data ++ (pyStrip line).drop 1 ++ "</li>".data ++
                      ['\n']) := by
                  simp [processLine, hl, h1, h2]
                rw [hpl]
                simp only [List.append_assoc]
                exact occursB_append_right "<li>".data (occursB_append_left _ hdrop)
        exact occursB_append_left _ hout
      · have hpl : processLine stack line = ([],
            drain stack ++ pyStrip line ++ "<br>".data ++ ['\n']) := by
          simp [processLine, hl]
        have hout : occursB t (processLine stack line).2 = true := by
          rw [hpl]
          simp only [List.append_assoc]
          exact occursB_append_right (drain stack) (occursB_append_left _ hsocc)
        exact occursB_append_left _ hout
    · exact occursB_append_right _ (ih (processLine stack l1).1 line hmem' hocc)

theorem eqC_true {d x : Char} (h : eqC d x = true) : x = d := by
  by_cases hx : x = d
  · exact hx
  · simp [eqC, hx] at h

/-- C5: HTML escaping is performed exactly once, as the first step, before
any marker pass: any input containing the literal text `&amp;` produces an
output containing that ampersand escaped again as `&amp;amp;`, never
decoded. -/
theorem htmlify_escape_first (s : String)
    (h : occursB "&amp;".data s.data = true) :
    occursB "&amp;amp;".data (htmlify s).data = true := by
  have h1 : occursB "&amp;".data (s.data.dropWhile (eqC '*')) = true := by
    refine occursB_dropWhile ?_ s.data h
    intro x hx hmem
    have hxs := eqC_true hx
    subst hxs
    revert hmem
    decide
  have h2 := occursB_escape h1
  have hesc : escapeL "&amp;".data = "&amp;amp;".data := by decide
  rw [hesc] at h2
  have h3 : occursB "&amp;amp;".data
      (subEm (escapeL (s.data.dropWhile (eqC '*')))) = true := by
    unfold subEm
    exact occursB_subPair '/' " <em>".data "</em> ".data (by decide) (by decide)
      _ _ (Nat.le_refl _) h2
  have h4 : occursB "&amp;amp;".data
      (subStrong (subEm (escapeL (s.data.dropWhile (eqC '*'))))) = true := by
    unfold subStrong
    exact occursB_subPair '*' " <strong>".data "</strong> ".data (by decide)
      (by decide) _ _ (Nat.le_refl _) h3
  have h5 : occursB "&amp;amp;".data
      (subCode (subStrong (subEm (escapeL (s.data.dropWhile (eqC '*')))))) = true :=
    occursB_subCode (by decide) (by decide) (by decide) _ _ (Nat.le_refl _) h4
  obtain ⟨q, hq, hocc⟩ := occursB_splitNl (by decide) (by decide) _ h5
  show occursB "&amp;amp;".data
    (runLines []
      (splitNl (subCode (subStrong (subEm
        (escapeL (s.data.dropWhile (eqC '*')))))))) = true
  exact occursB_runLines (by decide) (by decide) (by decide) _ [] q hq hocc

/-- Witness for C5 at a concrete input. -/
theorem htmlify_escape_first_wit :
    occursB "&amp;".data "x &amp; y".data = true ∧
    occursB "&amp;amp;".data (htmlify "x &amp; y").data = true :=
  ⟨by decide, htmlify_escape_first "x &amp; y" (by decide)⟩
